import Mathlib

/-!
# Verification of the hybrid RAG retrieval and evaluation engine

A shallow embedding of the retrieval service (`services/retrieval_service.py`),
the embedding-failure policy (`services/embedding_service.py`), and the metrics
scripts (`scripts/calculate_metrics.py`, `scripts/evaluate.py`,
`scripts/evaluate_answers.py`) of the `hybrid_rag` repository, together with
theorems settling the specification's claims about them.

Modelling conventions:
* Python floats are modelled as exact rationals (`ℚ`).
* Python dicts (insertion-ordered) are modelled as association lists in
  insertion order; updating an existing key keeps its position, as in CPython.
* Python's stable `sorted` and numpy's `argsort` (determinised as a stable
  sort) are modelled with `List.mergeSort`, which is a stable merge sort.
* Fallible external calls (OpenAI embedding / chat completions) are modelled
  by their observable outcome (`Option` / `Except`), since the service code
  only branches on success vs. failure.
-/

namespace HybridRag

/-- Models `models/response.py` `RetrievalResult`: one retrieved item.
Scores are exact rationals in place of Python floats. -/
structure RetrievalResult where
  doc_id : String
  content : String
  score : ℚ
  retrieval_type : String
  original_source : Option String
deriving DecidableEq, Repr, Inhabited

/-- Models `core/config.py` `Settings.DEFAULT_TOP_K = 5`. -/
def DEFAULT_TOP_K : ℕ := 5

/-- Models `core/config.py` `Settings.INITIAL_RETRIEVAL_K = 20`. -/
def INITIAL_RETRIEVAL_K : ℕ := 20

/-- Models `core/config.py` `Settings.RRF_K = 60`. -/
def RRF_K : ℕ := 60

/-! ## Python dict as insertion-ordered association list -/

/-- Keys of an association list, in insertion order (models `dict.keys()`). -/
def keysOf {β : Type} (m : List (String × β)) : List String :=
  m.map Prod.fst

/-- Models `fused_scores.get(doc_id, 0)`: value lookup with default `0`. -/
def scoreOf (m : List (String × ℚ)) (d : String) : ℚ :=
  match m with
  | [] => 0
  | (d0, v0) :: rest => if d0 = d then v0 else scoreOf rest d

/-- Models `fused_scores[doc_id] = fused_scores.get(doc_id, 0) + v`: add `v` to the
value at key `d`, keeping the key's dict position; append the key if absent. -/
def addScore (m : List (String × ℚ)) (d : String) (v : ℚ) : List (String × ℚ) :=
  match m with
  | [] => [(d, v)]
  | (d0, v0) :: rest =>
    if d0 = d then (d0, v0 + v) :: rest else (d0, v0) :: addScore rest d v

/-- Models `doc_map[doc_id]` lookup. -/
def lookupDoc (m : List (String × RetrievalResult)) (d : String) :
    Option RetrievalResult :=
  match m with
  | [] => none
  | (d0, r0) :: rest => if d0 = d then some r0 else lookupDoc rest d

/-- Models `doc_map[doc_id] = result`: overwrite the value at key `d` keeping its
dict position; append the key if absent (used by the vector-results loop). -/
def setDoc (m : List (String × RetrievalResult)) (d : String)
    (r : RetrievalResult) : List (String × RetrievalResult) :=
  match m with
  | [] => [(d, r)]
  | (d0, r0) :: rest =>
    if d0 = d then (d0, r) :: rest else (d0, r0) :: setDoc rest d r

/-- Models `if doc_id not in doc_map: doc_map[doc_id] = result` (keyword loop). -/
def insertDocIfAbsent (m : List (String × RetrievalResult)) (d : String)
    (r : RetrievalResult) : List (String × RetrievalResult) :=
  if d ∈ keysOf m then m else m ++ [(d, r)]

/-! ## RRF fusion (`services/retrieval_service.py`, `rrf_fusion`) -/

/-- One pass of `for rank, result in enumerate(results): fused_scores[doc_id] =
fused_scores.get(doc_id, 0) + 1 / (k + rank + 1)`, starting at rank `rank`. -/
def rrfScoreLoop (k : ℕ) (m : List (String × ℚ)) (rank : ℕ) :
    List RetrievalResult → List (String × ℚ)
  | [] => m
  | r :: rest =>
    rrfScoreLoop k (addScore m r.doc_id (1 / ((k : ℚ) + rank + 1))) (rank + 1) rest

/-- Vector-results pass over `doc_map`: `doc_map[doc_id] = result`. -/
def rrfDocLoopV (m : List (String × RetrievalResult)) :
    List RetrievalResult → List (String × RetrievalResult)
  | [] => m
  | r :: rest => rrfDocLoopV (setDoc m r.doc_id r) rest

/-- Keyword-results pass over `doc_map`:
`if doc_id not in doc_map: doc_map[doc_id] = result`. -/
def rrfDocLoopK (m : List (String × RetrievalResult)) :
    List RetrievalResult → List (String × RetrievalResult)
  | [] => m
  | r :: rest => rrfDocLoopK (insertDocIfAbsent m r.doc_id r) rest

/-- Models `k = k or settings.RRF_K`: Python `or` takes the default both for `None`
and for the falsy value `0`. (Python's `int` is restricted to `ℕ` here: the
damping constant is non-negative in every use in the repository, and a
negative `k` would make the source raise `ZeroDivisionError`.) -/
def resolveRRFK (kOpt : Option ℕ) : ℕ :=
  match kOpt with
  | none => RRF_K
  | some n => if n = 0 then RRF_K else n

/-- The fused-scores dict after both loops of `rrf_fusion`. -/
def fusedScores (k : ℕ) (vres kres : List RetrievalResult) :
    List (String × ℚ) :=
  rrfScoreLoop k (rrfScoreLoop k [] 0 vres) 0 kres

/-- The `doc_map` dict after both loops of `rrf_fusion`. -/
def fusedDocMap (vres kres : List RetrievalResult) :
    List (String × RetrievalResult) :=
  rrfDocLoopK (rrfDocLoopV [] vres) kres

/-- Models `sorted(fused_scores.keys(), key=lambda x: fused_scores[x], reverse=True)`:
Python's `sorted` is stable; with `reverse=True` it orders by descending key
value while equal keys keep their original relative order, which is exactly
a stable merge sort under `score b ≤ score a`. -/
def sortedIds (fs : List (String × ℚ)) : List String :=
  (keysOf fs).mergeSort (fun a b => decide (scoreOf fs b ≤ scoreOf fs a))

/-- The result constructed for one fused id (body of the final loop of
`rrf_fusion`). The `none` branch of the lookup is dead code: every key of
`fused_scores` is a key of `doc_map`. -/
def mkFused (fs : List (String × ℚ)) (dm : List (String × RetrievalResult))
    (d : String) : RetrievalResult :=
  match lookupDoc dm d with
  | some original =>
    { doc_id := original.doc_id
      content := original.content
      score := scoreOf fs d
      retrieval_type := "hybrid"
      original_source := original.original_source }
  | none => default

/-- Models `RetrievalService.rrf_fusion` (`services/retrieval_service.py`). -/
def rrf_fusion (vres kres : List RetrievalResult) (kOpt : Option ℕ) :
    List RetrievalResult :=
  let k := resolveRRFK kOpt
  let fs := fusedScores k vres kres
  let dm := fusedDocMap vres kres
  (sortedIds fs).map (mkFused fs dm)

/-- Spec-side abbreviation: the total RRF contribution of ranks of list `l`
(0-based, starting at offset `off`) whose item has identifier `d`; the item at
rank `r` contributes `1/(k + r + 1)`. -/
def rrfContribution (k : ℕ) (off : ℕ) (l : List RetrievalResult) (d : String) : ℚ :=
  match l with
  | [] => 0
  | r :: rest =>
    (if r.doc_id = d then 1 / ((k : ℚ) + off + 1) else 0)
      + rrfContribution k (off + 1) rest d

/-- Spec-side abbreviation: the first occurrence of each element of a list,
in order of first appearance, skipping elements already `seen`. -/
def firstOccurAux (seen : List String) : List String → List String
  | [] => []
  | x :: xs =>
    if x ∈ seen then firstOccurAux seen xs else x :: firstOccurAux (x :: seen) xs

/-- Spec-side abbreviation: each distinct element of a list, listed once, in
order of first appearance. -/
def firstOccurrences (l : List String) : List String :=
  firstOccurAux [] l

/-! ### Concrete sample data (used by sanity checks, witnesses and
counterexamples) -/

/-- Sample vector result for document `d1`. -/
def rA : RetrievalResult := ⟨"d1", "c1", 9/10, "vector", some "s1"⟩

/-- Sample vector result for document `d2`. -/
def rB : RetrievalResult := ⟨"d2", "c2", 8/10, "vector", some "s2"⟩

/-- Sample keyword result for document `d1` (colliding with `rA`). -/
def rC : RetrievalResult := ⟨"d1", "k1", 5, "keyword", some "k"⟩

/-- Sample keyword result for document `d3`. -/
def rD : RetrievalResult := ⟨"d3", "c3", 4, "keyword", none⟩

/-! ## Vector search and the retrieval orchestrator
(`services/retrieval_service.py`, `vector_search` / `keyword_search` /
`search`; `services/embedding_service.py`, `get_embedding`) -/

/-- A document of the in-memory vector index (`self._docs`): its embedding
enters only through the similarity row, which is abstracted as `sims`. -/
structure VDoc where
  doc_id : String
  content : String
  original_source : Option String
deriving DecidableEq, Repr, Inhabited

/-- A ranked document returned by the store's text search
(`DocumentRepository.text_search`), before `keyword_search` re-shapes it:
`doc["doc_id"]`, `doc["content"]`, `doc.get("score", 0.0)`,
`doc.get("original_source")`. -/
structure StoreDoc where
  doc_id : String
  content : String
  score : Option ℚ
  original_source : Option String
deriving DecidableEq, Repr, Inhabited

/-- Models `similarities.argsort()`: numpy's argsort determinised as a stable sort —
index order by ascending score; the stable merge sort keeps tied indices in
ascending index order. -/
def argsortAsc (scores : List ℚ) : List ℕ :=
  (List.range scores.length).mergeSort
    (fun i j => decide (scores.getD i 0 ≤ scores.getD j 0))

/-- Python's tail slice `xs[-top_k:]`: for `top_k = 0` this is `xs[0:]`, the
whole list (the `-0 == 0` pitfall); otherwise the last `top_k` elements. -/
def pythonTailSlice {α : Type} (xs : List α) (top_k : ℕ) : List α :=
  if top_k = 0 then xs else xs.drop (xs.length - top_k)

/-- What one `search` call observes: the loaded vector index, the
cosine-similarity row of the query against it (abstracting the embedding
matrix and `cosine_similarity`), the outcome of the embedding call
(`EmbeddingService.get_embedding` returns `[]` on a cleaned-empty input or on
any API exception), and the store's ranked text-search results (abstracting
MongoDB's `$text` relevance order). -/
structure RetrievalEnv where
  docs : List VDoc
  sims : List ℚ
  query_embedding : List ℚ
  kwDocs : List StoreDoc
deriving DecidableEq, Repr, Inhabited

/-- Models `RetrievalService.vector_search`: `[]` when the index is empty or the
embedding call failed; otherwise `argsort()[-top_k:][::-1]` over the
similarity row, mapped to vector-typed results. -/
def vector_search (env : RetrievalEnv) (top_k : ℕ) : List RetrievalResult :=
  if env.docs.length = 0 then []
  else if env.query_embedding = [] then []
  else
    ((pythonTailSlice (argsortAsc env.sims) top_k).reverse).map fun i =>
      { doc_id := (env.docs.getD i default).doc_id
        content := (env.docs.getD i default).content
        score := env.sims.getD i 0
        retrieval_type := "vector"
        original_source := (env.docs.getD i default).original_source }

/-- MongoDB's `.limit(limit)`: all matches for `limit = 0`, else at most
`limit`, in ranking order. -/
def mongoLimit {α : Type} (xs : List α) (limit : ℕ) : List α :=
  if limit = 0 then xs else xs.take limit

/-- Models `RetrievalService.keyword_search`: `text_search(query, limit=top_k)`
re-shaped into keyword-typed results. -/
def keyword_search (env : RetrievalEnv) (top_k : ℕ) : List RetrievalResult :=
  (mongoLimit env.kwDocs top_k).map fun doc =>
    { doc_id := doc.doc_id
      content := doc.content
      score := doc.score.getD 0
      retrieval_type := "keyword"
      original_source := doc.original_source }

/-- Models `top_k = top_k or settings.DEFAULT_TOP_K`: Python `or` takes the default
both for `None` and for the falsy value `0`. -/
def resolveTopK (topK : Option ℕ) : ℕ :=
  match topK with
  | none => DEFAULT_TOP_K
  | some n => if n = 0 then DEFAULT_TOP_K else n

/-- Models `RetrievalService.search`: mode dispatch; hybrid runs both legs at
`INITIAL_RETRIEVAL_K`, fuses with the default RRF constant, and truncates the
fused list to `top_k`. -/
def search (env : RetrievalEnv) (topK : Option ℕ) (mode : String) :
    List RetrievalResult :=
  let top_k := resolveTopK topK
  if mode = "vector" then vector_search env top_k
  else if mode = "keyword" then keyword_search env top_k
  else
    (rrf_fusion (vector_search env INITIAL_RETRIEVAL_K)
      (keyword_search env INITIAL_RETRIEVAL_K) none).take top_k

/-- Sample environment with two indexed documents whose similarity scores tie
at `1/2`. -/
def envTie : RetrievalEnv :=
  { docs := [⟨"d0", "x0", none⟩, ⟨"d1", "x1", none⟩]
    sims := [1/2, 1/2]
    query_embedding := [1]
    kwDocs := [] }

/-- Sample environment with an empty vector index and one text-search hit. -/
def envKw : RetrievalEnv :=
  { docs := [], sims := [], query_embedding := [], kwDocs := [⟨"kd", "kc", some 3, none⟩] }

/-- Sample environment where the embedding call failed (`[]`) but the vector
index and the text index are populated. -/
def envEmb : RetrievalEnv :=
  { docs := [⟨"d0", "x0", none⟩]
    sims := [1/2]
    query_embedding := []
    kwDocs := [⟨"kd", "kc", some 3, none⟩] }

/-! ## Metrics engine (`scripts/calculate_metrics.py`, `scripts/evaluate.py`)

Python floats are modelled as exact rationals; the scripts' final
`round(x, 4)` is presentation only and is not modelled. -/

/-- One RAG result record as consumed by `calculate_metrics`.  The optional
categorical fields model `r.get("question_type", "unknown")` and
`r.get("source_dataset", "unknown")`. -/
structure RagRecord where
  question_id : String
  gold_doc_ids : List String
  retrieved_doc_ids : List String
  question_type : Option String
  source_dataset : Option String
deriving DecidableEq, Repr, Inhabited

/-- Models `set(r["gold_doc_ids"])`. -/
def goldSet (r : RagRecord) : Finset String := r.gold_doc_ids.toFinset

/-- Models `hit_count = len(gold_ids.intersection(retrieved_ids))`. -/
def hit_count (r : RagRecord) : ℕ :=
  (goldSet r ∩ r.retrieved_doc_ids.toFinset).card

/-- Models `gold_count = len(gold_ids)`. -/
def gold_count (r : RagRecord) : ℕ := (goldSet r).card

/-- Models `is_hit = hit_count > 0`. -/
def is_hit (r : RagRecord) : Bool := decide (0 < hit_count r)

/-- The inner loop of `calculate_reciprocal_rank`: scan the retrieved list
with 1-based ranks starting at `rank`; the first occurrence of `g`
contributes `1/rank` and stops the scan; absence contributes `0`. -/
def firstRankContribution (g : String) : List String → ℕ → ℚ
  | [], _ => 0
  | d :: rest, rank =>
    if d = g then 1 / (rank : ℚ) else firstRankContribution g rest (rank + 1)

/-- Models `calculate_reciprocal_rank(gold_ids, retrieved_ids)`: `0.0` for an empty
gold set, otherwise the per-gold-id contributions summed over the set and
divided by the number of gold ids. -/
def calculate_reciprocal_rank (gold : Finset String) (retrieved : List String) :
    ℚ :=
  if gold = ∅ then 0
  else (∑ g ∈ gold, firstRankContribution g retrieved 1) / gold.card

/-- The reciprocal rank of one record. -/
def reciprocal_rank (r : RagRecord) : ℚ :=
  calculate_reciprocal_rank (goldSet r) r.retrieved_doc_ids

/-- Spec-side abbreviation: the claim's per-gold-id reciprocal rank — `1/rank`
for the 1-based rank of the gold id's first occurrence, `0` when absent. -/
def goldRR (g : String) (retrieved : List String) : ℚ :=
  match retrieved.findIdx? (fun d => d = g) with
  | some i => 1 / ((i : ℚ) + 1)
  | none => 0

/-- The per-group accumulator of `calculate_metrics` (the `defaultdict`
value), also standing for the script's scalar running totals
(`total_gold_docs`, `total_hit_docs`, `total_rr`, `len(results)`). -/
structure GroupAcc where
  total : ℕ
  gold_docs : ℕ
  hit_docs : ℕ
  rr_sum : ℚ
  single_gold_total : ℕ
  single_gold_hits : ℕ
deriving DecidableEq, Repr, Inhabited

/-- The zero accumulator (the `defaultdict` initialiser). -/
def GroupAcc.empty : GroupAcc := ⟨0, 0, 0, 0, 0, 0⟩

/-- One record folded into an accumulator (the loop body of
`calculate_metrics`). -/
def GroupAcc.add (a : GroupAcc) (r : RagRecord) : GroupAcc :=
  { total := a.total + 1
    gold_docs := a.gold_docs + gold_count r
    hit_docs := a.hit_docs + hit_count r
    rr_sum := a.rr_sum + reciprocal_rank r
    single_gold_total := a.single_gold_total + if gold_count r = 1 then 1 else 0
    single_gold_hits := a.single_gold_hits
      + if gold_count r = 1 ∧ is_hit r = true then 1 else 0 }

/-- Models `r.get("question_type", "unknown")`. -/
def qtypeOf (r : RagRecord) : String := r.question_type.getD "unknown"

/-- Models `r.get("source_dataset", "unknown")`. -/
def sourceOf (r : RagRecord) : String := r.source_dataset.getD "unknown"

/-- The running totals over a whole batch. -/
def totalsAcc (rs : List RagRecord) : GroupAcc :=
  rs.foldl GroupAcc.add GroupAcc.empty

/-- The accumulator of the group with key value `v` under the grouping
function `key` (`by_question_type[q_type]` / `by_source[source]`). -/
def groupAcc (key : RagRecord → String) (v : String) (rs : List RagRecord) :
    GroupAcc :=
  rs.foldl (fun a r => if key r = v then GroupAcc.add a r else a) GroupAcc.empty

/-- Models `calc_group_stats`'s `partial_hit_rate`:
`hit_docs / gold_docs if gold_docs > 0 else 0`. -/
def group_part_hit_rate (g : GroupAcc) : ℚ :=
  if 0 < g.gold_docs then (g.hit_docs : ℚ) / g.gold_docs else 0

/-- Models `calc_group_stats`'s `mrr`: `rr_sum / total if total > 0 else 0`. -/
def group_mrr (g : GroupAcc) : ℚ :=
  if 0 < g.total then g.rr_sum / g.total else 0

/-- The summary `partial_hit_rate`:
`total_hit_docs / total_gold_docs if total_gold_docs > 0 else 0`. -/
def part_hit_rate (rs : List RagRecord) : ℚ :=
  if 0 < (totalsAcc rs).gold_docs
  then ((totalsAcc rs).hit_docs : ℚ) / (totalsAcc rs).gold_docs else 0

/-- The summary `mrr`: `total_rr / total if total > 0 else 0`. -/
def summary_mrr (rs : List RagRecord) : ℚ :=
  if 0 < rs.length then (totalsAcc rs).rr_sum / rs.length else 0

/-- Models `single_gold_results`: the records with exactly one gold document. -/
def single_gold_results (rs : List RagRecord) : List RagRecord :=
  rs.filter (fun r => gold_count r = 1)

/-- The summary `single_gold_hit_rate`: hit fraction over single-gold
records, `None` when there are none. -/
def single_gold_hit_rate (rs : List RagRecord) : Option ℚ :=
  if 0 < (single_gold_results rs).length
  then some ((((single_gold_results rs).filter (fun r => is_hit r)).length : ℚ)
    / (single_gold_results rs).length)
  else none

/-- Models `scripts/evaluate.py` `print_statistics`:
`hit_rate = hits / total if total > 0 else 0` where `hits` counts records
with `is_hit` (computed there exactly as in `calculate_metrics`). -/
def hit_rate (rs : List RagRecord) : ℚ :=
  if 0 < rs.length
  then ((rs.filter (fun r => is_hit r)).length : ℚ) / rs.length else 0

/-! ## Answer-correctness judge (`scripts/evaluate_answers.py`) -/

/-- Models `evaluate_answer`: the provider call is modelled by its observable
outcome — the response content on success, the exception text on failure.
On success the content is stripped (`.strip()` ≈ `String.trim`) and compared
case-insensitively with "pass"; on any exception the function catches it and
returns the error marker `"Error: {e}"` with `is_pass = False`. -/
def evaluate_answer (resp : Except String String) : String × Bool :=
  match resp with
  | Except.ok content =>
    let raw := content.trim
    (raw, raw.toLower == "pass")
  | Except.error e => ("Error: " ++ e, false)

/-- Models `evaluate_all`: the batch loop appends one judgment per record; a
provider failure degrades that record and never escapes the loop. -/
def evaluate_all (resps : List (Except String String)) : List (String × Bool) :=
  resps.map evaluate_answer

/-! ### Lemmas about the fused-scores accumulation -/

theorem keysOf_nil {β : Type} : keysOf ([] : List (String × β)) = [] := rfl

theorem keysOf_cons {β : Type} (a : String) (b : β) (m : List (String × β)) :
    keysOf ((a, b) :: m) = a :: keysOf m := rfl

theorem scoreOf_addScore (m : List (String × ℚ)) (d d' : String) (v : ℚ) :
    scoreOf (addScore m d v) d' = scoreOf m d' + if d = d' then v else 0 := by
  induction m with
  | nil =>
    simp only [addScore, scoreOf]
    rw [zero_add]
  | cons hd tl ih =>
    obtain ⟨d0, v0⟩ := hd
    by_cases h0 : d0 = d
    · subst h0
      have he : addScore ((d0, v0) :: tl) d0 v = (d0, v0 + v) :: tl := by
        simp [addScore]
      rw [he]
      simp only [scoreOf]
      by_cases h1 : d0 = d'
      · simp [h1]
      · simp [h1]
    · simp only [addScore, if_neg h0, scoreOf]
      by_cases h1 : d0 = d'
      · subst h1
        have h2 : ¬ d = d0 := fun h => h0 h.symm
        simp [h2]
      · simp [h1, ih]

theorem mem_keysOf_addScore (m : List (String × ℚ)) (d d' : String) (v : ℚ) :
    d' ∈ keysOf (addScore m d v) ↔ d' ∈ keysOf m ∨ d' = d := by
  induction m with
  | nil => simp [addScore, keysOf]
  | cons hd tl ih =>
    obtain ⟨d0, v0⟩ := hd
    by_cases h0 : d0 = d
    · subst h0
      have he : addScore ((d0, v0) :: tl) d0 v = (d0, v0 + v) :: tl := by
        simp [addScore]
      rw [he]
      simp only [keysOf_cons, List.mem_cons]
      tauto
    · simp only [addScore, if_neg h0, keysOf_cons, List.mem_cons]
      rw [ih]
      tauto

theorem keysOf_addScore_nodup (m : List (String × ℚ)) (d : String) (v : ℚ)
    (h : (keysOf m).Nodup) : (keysOf (addScore m d v)).Nodup := by
  induction m with
  | nil => simp [addScore, keysOf]
  | cons hd tl ih =>
    obtain ⟨d0, v0⟩ := hd
    simp only [keysOf_cons, List.nodup_cons] at h
    by_cases h0 : d0 = d
    · subst h0
      have he : addScore ((d0, v0) :: tl) d0 v = (d0, v0 + v) :: tl := by
        simp [addScore]
      rw [he]
      simp only [keysOf_cons, List.nodup_cons]
      exact h
    · simp only [addScore, if_neg h0, keysOf_cons, List.nodup_cons]
      refine ⟨?_, ih h.2⟩
      intro hmem
      rcases (mem_keysOf_addScore tl d d0 v).mp hmem with h1 | h1
      · exact h.1 h1
      · exact h0 h1

theorem scoreOf_rrfScoreLoop (k : ℕ) (l : List RetrievalResult)
    (m : List (String × ℚ)) (rank : ℕ) (d : String) :
    scoreOf (rrfScoreLoop k m rank l) d
      = scoreOf m d + rrfContribution k rank l d := by
  induction l generalizing m rank with
  | nil => simp [rrfScoreLoop, rrfContribution]
  | cons r rest ih =>
    simp only [rrfScoreLoop, rrfContribution]
    rw [ih, scoreOf_addScore, add_assoc]

theorem mem_keysOf_rrfScoreLoop (k : ℕ) (l : List RetrievalResult)
    (m : List (String × ℚ)) (rank : ℕ) (d : String) :
    d ∈ keysOf (rrfScoreLoop k m rank l)
      ↔ d ∈ keysOf m ∨ d ∈ l.map RetrievalResult.doc_id := by
  induction l generalizing m rank with
  | nil => simp [rrfScoreLoop]
  | cons r rest ih =>
    simp only [rrfScoreLoop, List.map_cons, List.mem_cons]
    rw [ih, mem_keysOf_addScore]
    tauto

theorem keysOf_rrfScoreLoop_nodup (k : ℕ) (l : List RetrievalResult)
    (m : List (String × ℚ)) (rank : ℕ) (h : (keysOf m).Nodup) :
    (keysOf (rrfScoreLoop k m rank l)).Nodup := by
  induction l generalizing m rank with
  | nil => exact h
  | cons r rest ih =>
    exact ih _ _ (keysOf_addScore_nodup _ _ _ h)

theorem rrfContribution_of_not_mem (k off : ℕ) (l : List RetrievalResult)
    (d : String) (h : d ∉ l.map RetrievalResult.doc_id) :
    rrfContribution k off l d = 0 := by
  induction l generalizing off with
  | nil => rfl
  | cons r rest ih =>
    simp only [List.map_cons, List.mem_cons, not_or] at h
    have hne : r.doc_id ≠ d := fun he => h.1 he.symm
    simp [rrfContribution, hne, ih _ h.2]

theorem rrfContribution_nonneg (k off : ℕ) (l : List RetrievalResult)
    (d : String) : 0 ≤ rrfContribution k off l d := by
  induction l generalizing off with
  | nil => exact le_refl 0
  | cons r rest ih =>
    refine add_nonneg ?_ (ih _)
    split
    · positivity
    · exact le_refl 0

/-- In a list with no duplicate identifiers, the identifier found at 0-based
rank `ra` contributes exactly `1/(k + off + ra + 1)` in total. -/
theorem rrfContribution_of_nodup (k : ℕ) (l : List RetrievalResult)
    (d : String) (hnd : (l.map RetrievalResult.doc_id).Nodup) :
    ∀ (off ra : ℕ) (hra : ra < l.length),
      (l.get ⟨ra, hra⟩).doc_id = d →
      rrfContribution k off l d = 1 / ((k : ℚ) + off + ra + 1) := by
  induction l with
  | nil =>
    intro off ra hra
    exact absurd hra (by simp)
  | cons r rest ih =>
    intro off ra hra hd
    simp only [List.map_cons, List.nodup_cons] at hnd
    cases ra with
    | zero =>
      simp only [List.get] at hd
      have hnm : d ∉ rest.map RetrievalResult.doc_id := hd ▸ hnd.1
      simp only [rrfContribution, if_pos hd,
        rrfContribution_of_not_mem k (off + 1) rest d hnm, add_zero]
      norm_num
    | succ ra =>
      simp only [List.get] at hd
      have hne : r.doc_id ≠ d := by
        intro he
        apply hnd.1
        rw [he, ← hd]
        exact List.mem_map_of_mem RetrievalResult.doc_id (rest.get_mem _ _)
      have hres := ih hnd.2 (off + 1) ra (Nat.lt_of_succ_lt_succ hra) hd
      rw [rrfContribution, if_neg hne, hres, zero_add]
      push_cast
      ring_nf

/-! ### Lemmas about the `doc_map` accumulation -/

theorem lookupDoc_setDoc (m : List (String × RetrievalResult)) (d d' : String)
    (r : RetrievalResult) :
    lookupDoc (setDoc m d r) d' = if d = d' then some r else lookupDoc m d' := by
  induction m with
  | nil => simp [setDoc, lookupDoc]
  | cons hd tl ih =>
    obtain ⟨d0, r0⟩ := hd
    by_cases h0 : d0 = d
    · subst h0
      have he : setDoc ((d0, r0) :: tl) d0 r = (d0, r) :: tl := by
        simp [setDoc]
      rw [he]
      simp only [lookupDoc]
      by_cases h1 : d0 = d'
      · simp [h1]
      · simp [h1]
    · simp only [setDoc, if_neg h0, lookupDoc]
      by_cases h1 : d0 = d'
      · subst h1
        have h2 : ¬ d = d0 := fun h => h0 h.symm
        simp [h2]
      · simp [h1, ih]

theorem lookupDoc_append (m₁ m₂ : List (String × RetrievalResult)) (d : String) :
    lookupDoc (m₁ ++ m₂) d
      = match lookupDoc m₁ d with
        | some r => some r
        | none => lookupDoc m₂ d := by
  induction m₁ with
  | nil => simp [lookupDoc]
  | cons hd tl ih =>
    obtain ⟨d0, r0⟩ := hd
    by_cases h0 : d0 = d <;> simp [lookupDoc, h0, ih]

theorem lookupDoc_eq_none_iff (m : List (String × RetrievalResult)) (d : String) :
    lookupDoc m d = none ↔ d ∉ keysOf m := by
  induction m with
  | nil => simp [lookupDoc, keysOf]
  | cons hd tl ih =>
    obtain ⟨d0, r0⟩ := hd
    by_cases h0 : d0 = d
    · subst h0
      simp [lookupDoc, keysOf_cons]
    · simp only [lookupDoc, if_neg h0, keysOf_cons, List.mem_cons]
      rw [ih]
      have h2 : ¬ d = d0 := fun h => h0 h.symm
      tauto

theorem mem_keysOf_setDoc (m : List (String × RetrievalResult)) (d d' : String)
    (r : RetrievalResult) :
    d' ∈ keysOf (setDoc m d r) ↔ d' ∈ keysOf m ∨ d' = d := by
  induction m with
  | nil => simp [setDoc, keysOf]
  | cons hd tl ih =>
    obtain ⟨d0, r0⟩ := hd
    by_cases h0 : d0 = d
    · subst h0
      have he : setDoc ((d0, r0) :: tl) d0 r = (d0, r) :: tl := by simp [setDoc]
      rw [he]
      simp only [keysOf_cons, List.mem_cons]
      tauto
    · simp only [setDoc, if_neg h0, keysOf_cons, List.mem_cons]
      rw [ih]
      tauto

theorem mem_keysOf_insertDocIfAbsent (m : List (String × RetrievalResult))
    (d d' : String) (r : RetrievalResult) :
    d' ∈ keysOf (insertDocIfAbsent m d r) ↔ d' ∈ keysOf m ∨ d' = d := by
  unfold insertDocIfAbsent
  by_cases h : d ∈ keysOf m
  · rw [if_pos h]
    constructor
    · exact Or.inl
    · rintro (h1 | h1)
      · exact h1
      · exact h1 ▸ h
  · rw [if_neg h]
    simp [keysOf]

theorem mem_keysOf_rrfDocLoopV (l : List RetrievalResult)
    (m : List (String × RetrievalResult)) (d : String) :
    d ∈ keysOf (rrfDocLoopV m l)
      ↔ d ∈ keysOf m ∨ d ∈ l.map RetrievalResult.doc_id := by
  induction l generalizing m with
  | nil => simp [rrfDocLoopV]
  | cons r rest ih =>
    simp only [rrfDocLoopV, List.map_cons, List.mem_cons]
    rw [ih, mem_keysOf_setDoc]
    tauto

theorem mem_keysOf_rrfDocLoopK (l : List RetrievalResult)
    (m : List (String × RetrievalResult)) (d : String) :
    d ∈ keysOf (rrfDocLoopK m l)
      ↔ d ∈ keysOf m ∨ d ∈ l.map RetrievalResult.doc_id := by
  induction l generalizing m with
  | nil => simp [rrfDocLoopK]
  | cons r rest ih =>
    simp only [rrfDocLoopK, List.map_cons, List.mem_cons]
    rw [ih, mem_keysOf_insertDocIfAbsent]
    tauto

theorem lookupDoc_insertDocIfAbsent_pres (m : List (String × RetrievalResult))
    (d d' : String) (r o : RetrievalResult) (h : lookupDoc m d' = some o) :
    lookupDoc (insertDocIfAbsent m d r) d' = some o := by
  unfold insertDocIfAbsent
  by_cases hm : d ∈ keysOf m
  · rwa [if_pos hm]
  · rw [if_neg hm, lookupDoc_append, h]

theorem lookupDoc_rrfDocLoopK_pres (l : List RetrievalResult)
    (m : List (String × RetrievalResult)) (d : String) (o : RetrievalResult)
    (h : lookupDoc m d = some o) :
    lookupDoc (rrfDocLoopK m l) d = some o := by
  induction l generalizing m with
  | nil => exact h
  | cons r rest ih =>
    exact ih _ (lookupDoc_insertDocIfAbsent_pres _ _ _ _ _ h)

theorem lookupDoc_rrfDocLoopV_some (l : List RetrievalResult)
    (m : List (String × RetrievalResult)) (d : String) (o : RetrievalResult)
    (h : lookupDoc (rrfDocLoopV m l) d = some o) :
    lookupDoc m d = some o ∨ (o ∈ l ∧ o.doc_id = d) := by
  induction l generalizing m with
  | nil => exact Or.inl h
  | cons r rest ih =>
    rcases ih _ h with h1 | h1
    · rw [lookupDoc_setDoc] at h1
      by_cases h2 : r.doc_id = d
      · rw [if_pos h2] at h1
        have hro : r = o := Option.some_inj.mp h1
        subst hro
        exact Or.inr ⟨List.mem_cons_self r rest, h2⟩
      · rw [if_neg h2] at h1
        exact Or.inl h1
    · exact Or.inr ⟨List.mem_cons_of_mem r h1.1, h1.2⟩

theorem lookupDoc_insertDocIfAbsent_some (m : List (String × RetrievalResult))
    (d d' : String) (r o : RetrievalResult)
    (h : lookupDoc (insertDocIfAbsent m d r) d' = some o) :
    lookupDoc m d' = some o ∨ (o = r ∧ d = d' ∧ d' ∉ keysOf m) := by
  unfold insertDocIfAbsent at h
  by_cases hm : d ∈ keysOf m
  · rw [if_pos hm] at h
    exact Or.inl h
  · rw [if_neg hm, lookupDoc_append] at h
    cases he : lookupDoc m d' with
    | some x =>
      rw [he] at h
      exact Or.inl h
    | none =>
      rw [he] at h
      simp only [lookupDoc] at h
      by_cases h2 : d = d'
      · rw [if_pos h2] at h
        refine Or.inr ⟨(Option.some_inj.mp h).symm, h2, ?_⟩
        exact (lookupDoc_eq_none_iff m d').mp he
      · rw [if_neg h2] at h
        exact absurd h (by simp)

theorem lookupDoc_rrfDocLoopK_some (l : List RetrievalResult)
    (m : List (String × RetrievalResult)) (d : String) (o : RetrievalResult)
    (h : lookupDoc (rrfDocLoopK m l) d = some o) :
    lookupDoc m d = some o ∨ (o ∈ l ∧ o.doc_id = d ∧ d ∉ keysOf m) := by
  induction l generalizing m with
  | nil => exact Or.inl h
  | cons r rest ih =>
    rcases ih _ h with h1 | h1
    · rcases lookupDoc_insertDocIfAbsent_some _ _ _ _ _ h1 with h2 | h2
      · exact Or.inl h2
      · exact Or.inr ⟨h2.1 ▸ List.mem_cons_self r rest, h2.1 ▸ h2.2.1, h2.2.2⟩
    · refine Or.inr ⟨List.mem_cons_of_mem r h1.1, h1.2.1, ?_⟩
      intro hmem
      exact h1.2.2 ((mem_keysOf_insertDocIfAbsent m r.doc_id d r).mpr (Or.inl hmem))

theorem lookupDoc_isSome_of_mem_keys (m : List (String × RetrievalResult))
    (d : String) (h : d ∈ keysOf m) : ∃ o, lookupDoc m d = some o := by
  cases he : lookupDoc m d with
  | some o => exact ⟨o, rfl⟩
  | none => exact absurd h ((lookupDoc_eq_none_iff m d).mp he)

/-- Every binding of the final `doc_map` comes from the vector list, or — only
for identifiers the vector list does not contain — from the keyword list;
either way the binding's key is the result's identifier. -/
theorem fusedDocMap_some (vres kres : List RetrievalResult) (d : String)
    (o : RetrievalResult) (h : lookupDoc (fusedDocMap vres kres) d = some o) :
    (o ∈ vres ∧ o.doc_id = d)
      ∨ (o ∈ kres ∧ o.doc_id = d ∧ d ∉ vres.map RetrievalResult.doc_id) := by
  rcases lookupDoc_rrfDocLoopK_some _ _ _ _ h with h1 | h1
  · rcases lookupDoc_rrfDocLoopV_some _ _ _ _ h1 with h2 | h2
    · exact absurd h2 (by simp [lookupDoc])
    · exact Or.inl h2
  · refine Or.inr ⟨h1.1, h1.2.1, ?_⟩
    intro hmem
    exact h1.2.2 ((mem_keysOf_rrfDocLoopV vres [] d).mpr (Or.inr hmem))

theorem fusedDocMap_coverage (vres kres : List RetrievalResult) (d : String)
    (h : d ∈ vres.map RetrievalResult.doc_id ∨ d ∈ kres.map RetrievalResult.doc_id) :
    ∃ o, lookupDoc (fusedDocMap vres kres) d = some o := by
  apply lookupDoc_isSome_of_mem_keys
  rw [fusedDocMap, mem_keysOf_rrfDocLoopK, mem_keysOf_rrfDocLoopV]
  tauto

/-- Keys of the fused-scores dict are exactly the identifiers of either input. -/
theorem mem_keysOf_fusedScores (k : ℕ) (vres kres : List RetrievalResult)
    (d : String) :
    d ∈ keysOf (fusedScores k vres kres)
      ↔ d ∈ vres.map RetrievalResult.doc_id ∨ d ∈ kres.map RetrievalResult.doc_id := by
  rw [fusedScores, mem_keysOf_rrfScoreLoop, mem_keysOf_rrfScoreLoop]
  simp [keysOf]

theorem keysOf_fusedScores_nodup (k : ℕ) (vres kres : List RetrievalResult) :
    (keysOf (fusedScores k vres kres)).Nodup :=
  keysOf_rrfScoreLoop_nodup _ _ _ _
    (keysOf_rrfScoreLoop_nodup _ _ _ _ (by simp [keysOf]))

/-- The accumulated score of an identifier is the sum of its rank
contributions from the two input lists. -/
theorem scoreOf_fusedScores (k : ℕ) (vres kres : List RetrievalResult)
    (d : String) :
    scoreOf (fusedScores k vres kres) d
      = rrfContribution k 0 vres d + rrfContribution k 0 kres d := by
  rw [fusedScores, scoreOf_rrfScoreLoop, scoreOf_rrfScoreLoop]
  simp [scoreOf]

/-! ### Structural lemmas about `rrf_fusion` -/

theorem sortedIds_perm (fs : List (String × ℚ)) :
    List.Perm (sortedIds fs) (keysOf fs) :=
  List.mergeSort_perm (keysOf fs) _

theorem mem_sortedIds (fs : List (String × ℚ)) (d : String) :
    d ∈ sortedIds fs ↔ d ∈ keysOf fs :=
  (sortedIds_perm fs).mem_iff

theorem sortedIds_sorted (fs : List (String × ℚ)) :
    (sortedIds fs).Pairwise (fun a b => scoreOf fs b ≤ scoreOf fs a) := by
  have h := @List.sorted_mergeSort String
    (fun a b => decide (scoreOf fs b ≤ scoreOf fs a))
    (fun a b c hab hbc => by
      simp only [decide_eq_true_eq] at hab hbc ⊢
      exact le_trans hbc hab)
    (fun a b => by
      simp only [Bool.or_eq_true, decide_eq_true_eq]
      exact le_total (scoreOf fs b) (scoreOf fs a))
    (keysOf fs)
  refine h.imp ?_
  intro a b hab
  simpa using hab

/-- The identifiers of the fused output are exactly the sorted key list. -/
theorem rrf_fusion_map_doc_id (vres kres : List RetrievalResult)
    (kOpt : Option ℕ) :
    (rrf_fusion vres kres kOpt).map RetrievalResult.doc_id
      = sortedIds (fusedScores (resolveRRFK kOpt) vres kres) := by
  rw [rrf_fusion]
  rw [List.map_map]
  have : ∀ d ∈ sortedIds (fusedScores (resolveRRFK kOpt) vres kres),
      (RetrievalResult.doc_id ∘
        mkFused (fusedScores (resolveRRFK kOpt) vres kres)
          (fusedDocMap vres kres)) d = id d := by
    intro d hd
    rw [mem_sortedIds, mem_keysOf_fusedScores] at hd
    obtain ⟨o, ho⟩ := fusedDocMap_coverage vres kres d hd
    have hoid : o.doc_id = d := by
      rcases fusedDocMap_some vres kres d o ho with h | h
      · exact h.2
      · exact h.2.1
    simp [mkFused, ho, hoid]
  rw [List.map_congr_left this, List.map_id]

/-- Every fused entry records the accumulated score of its identifier. -/
theorem rrf_fusion_score (vres kres : List RetrievalResult) (kOpt : Option ℕ)
    (e : RetrievalResult) (he : e ∈ rrf_fusion vres kres kOpt) :
    e.score = scoreOf (fusedScores (resolveRRFK kOpt) vres kres) e.doc_id := by
  rw [rrf_fusion] at he
  obtain ⟨d, hd, hde⟩ := List.mem_map.mp he
  rw [mem_sortedIds, mem_keysOf_fusedScores] at hd
  obtain ⟨o, ho⟩ := fusedDocMap_coverage vres kres d hd
  have hoid : o.doc_id = d := by
    rcases fusedDocMap_some vres kres d o ho with h | h
    · exact h.2
    · exact h.2.1
  rw [← hde]
  simp [mkFused, ho, hoid]

/-! ### Insertion order of the fused-scores keys -/

theorem firstOccurAux_congr (l : List String) (s1 s2 : List String)
    (h : ∀ y, y ∈ s1 ↔ y ∈ s2) : firstOccurAux s1 l = firstOccurAux s2 l := by
  induction l generalizing s1 s2 with
  | nil => rfl
  | cons x xs ih =>
    by_cases hx : x ∈ s1
    · rw [firstOccurAux, if_pos hx, firstOccurAux, if_pos ((h x).mp hx)]
      exact ih s1 s2 h
    · rw [firstOccurAux, if_neg hx, firstOccurAux, if_neg (fun hh => hx ((h x).mpr hh))]
      refine congrArg (x :: ·) (ih _ _ ?_)
      intro y
      simp only [List.mem_cons]
      rw [h y]

theorem keysOf_addScore_eq (m : List (String × ℚ)) (d : String) (v : ℚ) :
    keysOf (addScore m d v)
      = if d ∈ keysOf m then keysOf m else keysOf m ++ [d] := by
  induction m with
  | nil => simp [addScore, keysOf]
  | cons hd tl ih =>
    obtain ⟨d0, v0⟩ := hd
    by_cases h0 : d0 = d
    · subst h0
      have he : addScore ((d0, v0) :: tl) d0 v = (d0, v0 + v) :: tl := by
        simp [addScore]
      rw [he]
      simp [keysOf_cons]
    · rw [addScore, if_neg h0, keysOf_cons, keysOf_cons, ih]
      by_cases hm : d ∈ keysOf tl
      · have : d ∈ d0 :: keysOf tl := List.mem_cons_of_mem d0 hm
        rw [if_pos hm, if_pos this]
      · have h2 : ¬ d = d0 := fun h => h0 h.symm
        have : d ∉ d0 :: keysOf tl := by
          simp only [List.mem_cons]
          tauto
        rw [if_neg hm, if_neg this]
        rfl

theorem keysOf_rrfScoreLoop_eq (k : ℕ) (l : List RetrievalResult)
    (m : List (String × ℚ)) (rank : ℕ) :
    keysOf (rrfScoreLoop k m rank l)
      = keysOf m ++ firstOccurAux (keysOf m) (l.map RetrievalResult.doc_id) := by
  induction l generalizing m rank with
  | nil => simp [rrfScoreLoop, firstOccurAux]
  | cons r rest ih =>
    rw [rrfScoreLoop, ih, keysOf_addScore_eq, List.map_cons]
    by_cases hm : r.doc_id ∈ keysOf m
    · rw [if_pos hm, firstOccurAux, if_pos hm]
    · rw [if_neg hm, firstOccurAux, if_neg hm]
      rw [List.append_assoc, List.singleton_append]
      refine congrArg (keysOf m ++ ·) (congrArg (r.doc_id :: ·) ?_)
      refine firstOccurAux_congr _ _ _ ?_
      intro y
      simp only [List.mem_append, List.mem_cons, List.mem_singleton]
      tauto

theorem mem_firstOccurAux (l : List String) (s : List String) (y : String) :
    y ∈ firstOccurAux s l ↔ y ∈ l ∧ y ∉ s := by
  induction l generalizing s with
  | nil => simp [firstOccurAux]
  | cons x xs ih =>
    by_cases hx : x ∈ s
    · rw [firstOccurAux, if_pos hx, ih]
      simp only [List.mem_cons]
      have hxy : y = x → y ∈ s := fun h => h ▸ hx
      tauto
    · rw [firstOccurAux, if_neg hx]
      simp only [List.mem_cons, ih, List.mem_cons]
      have hxy : y = x → y ∉ s := fun h => h ▸ hx
      tauto

theorem firstOccurAux_append (a b s : List String) :
    firstOccurAux s (a ++ b)
      = firstOccurAux s a ++ firstOccurAux (a ++ s) b := by
  induction a generalizing s with
  | nil => rfl
  | cons x xs ih =>
    by_cases hx : x ∈ s
    · rw [List.cons_append, firstOccurAux, if_pos hx, firstOccurAux, if_pos hx, ih]
      refine congrArg (fun t => firstOccurAux s xs ++ t)
        (firstOccurAux_congr _ _ _ ?_)
      intro y
      simp only [List.mem_append, List.mem_cons]
      have hxy : y = x → y ∈ s := fun h => h ▸ hx
      tauto
    · rw [List.cons_append, firstOccurAux, if_neg hx, firstOccurAux, if_neg hx, ih]
      rw [List.cons_append]
      refine congrArg (fun t => x :: t)
        (congrArg (fun t => firstOccurAux (x :: s) xs ++ t)
          (firstOccurAux_congr _ _ _ ?_))
      intro y
      simp only [List.mem_append, List.mem_cons]
      tauto

/-- The keys of the fused-scores dict (= the candidate order before sorting)
are the distinct identifiers in first-introduction order: vector results in
rank order first, then keyword-only results in rank order. -/
theorem keysOf_fusedScores_eq (k : ℕ) (vres kres : List RetrievalResult) :
    keysOf (fusedScores k vres kres)
      = firstOccurrences
          (vres.map RetrievalResult.doc_id ++ kres.map RetrievalResult.doc_id) := by
  have h1 : keysOf ([] : List (String × ℚ)) = [] := rfl
  have hv : keysOf (rrfScoreLoop k [] 0 vres)
      = firstOccurAux [] (vres.map RetrievalResult.doc_id) := by
    rw [keysOf_rrfScoreLoop_eq, h1, List.nil_append]
  have hk2 : keysOf (fusedScores k vres kres)
      = keysOf (rrfScoreLoop k [] 0 vres)
        ++ firstOccurAux (keysOf (rrfScoreLoop k [] 0 vres))
            (kres.map RetrievalResult.doc_id) :=
    keysOf_rrfScoreLoop_eq k kres (rrfScoreLoop k [] 0 vres) 0
  rw [hk2, hv, firstOccurrences, firstOccurAux_append]
  refine congrArg (fun t => firstOccurAux [] (vres.map RetrievalResult.doc_id) ++ t)
    (firstOccurAux_congr _ _ _ ?_)
  intro y
  rw [mem_firstOccurAux]
  simp

/-! ### Stability of the fused sort -/

/-- Equal-scored identifiers keep their relative insertion order through the
stable descending sort. -/
theorem sortedIds_stable (fs : List (String × ℚ)) (d1 d2 : String)
    (hsub : List.Sublist [d1, d2] (keysOf fs))
    (htie : scoreOf fs d1 = scoreOf fs d2) :
    List.Sublist [d1, d2] (sortedIds fs) := by
  refine List.pair_sublist_mergeSort ?_ ?_ ?_ hsub
  · intro a b c hab hbc
    simp only [decide_eq_true_eq] at hab hbc ⊢
    exact le_trans hbc hab
  · intro a b
    simp only [Bool.or_eq_true, decide_eq_true_eq]
    exact le_total (scoreOf fs b) (scoreOf fs a)
  · simp only [decide_eq_true_eq]
    exact le_of_eq htie.symm

theorem resolveRRFK_of_pos (k : ℕ) (hk : 1 ≤ k) : resolveRRFK (some k) = k := by
  rw [resolveRRFK]
  have h : ¬ k = 0 := by omega
  rw [if_neg h]

theorem rrf_fusion_eq (vres kres : List RetrievalResult) (kOpt : Option ℕ) :
    rrf_fusion vres kres kOpt
      = (sortedIds (fusedScores (resolveRRFK kOpt) vres kres)).map
          (mkFused (fusedScores (resolveRRFK kOpt) vres kres)
            (fusedDocMap vres kres)) := rfl

theorem mkFused_score_of_mem (k : ℕ) (vres kres : List RetrievalResult)
    (d : String) (hd : d ∈ keysOf (fusedScores k vres kres)) :
    (mkFused (fusedScores k vres kres) (fusedDocMap vres kres) d).score
      = scoreOf (fusedScores k vres kres) d := by
  rw [mem_keysOf_fusedScores] at hd
  obtain ⟨o, ho⟩ := fusedDocMap_coverage vres kres d hd
  simp [mkFused, ho]

/-! ### Lemmas about the stable argsort and vector search -/

theorem pair_sublist_range (i j n : ℕ) (hij : i < j) (hjn : j < n) :
    List.Sublist [i, j] (List.range n) := by
  induction n with
  | zero => omega
  | succ n ih =>
    rw [List.range_succ]
    by_cases h : j < n
    · exact (ih h).trans (List.sublist_append_left _ _)
    · have hj : j = n := by omega
      subst hj
      have h1 : List.Sublist [i] (List.range j) :=
        List.singleton_sublist.mpr (List.mem_range.mpr hij)
      have h2 := List.Sublist.append h1 (List.Sublist.refl [j])
      simpa using h2

theorem sublist_pair_antisymm {α : Type} (l : List α) (hnd : l.Nodup)
    (a b : α) (h1 : List.Sublist [a, b] l) (h2 : List.Sublist [b, a] l) :
    a = b := by
  induction l with
  | nil => cases h1
  | cons x t ih =>
    rw [List.nodup_cons] at hnd
    cases h1 with
    | cons _ h1' =>
      cases h2 with
      | cons _ h2' => exact ih hnd.2 h1' h2'
      | cons₂ _ h2' =>
        exact absurd (h1'.subset (by simp)) hnd.1
    | cons₂ _ h1' =>
      cases h2 with
      | cons _ h2' =>
        exact absurd (h2'.subset (by simp)) hnd.1
      | cons₂ _ h2' => rfl

theorem argsortAsc_perm (scores : List ℚ) :
    List.Perm (argsortAsc scores) (List.range scores.length) :=
  List.mergeSort_perm _ _

theorem argsortAsc_nodup (scores : List ℚ) : (argsortAsc scores).Nodup :=
  (argsortAsc_perm scores).nodup_iff.mpr (List.nodup_range _)

theorem mem_argsortAsc (scores : List ℚ) (i : ℕ) :
    i ∈ argsortAsc scores ↔ i < scores.length := by
  rw [(argsortAsc_perm scores).mem_iff, List.mem_range]

theorem argsortAsc_length (scores : List ℚ) :
    (argsortAsc scores).length = scores.length := by
  rw [(argsortAsc_perm scores).length_eq, List.length_range]

theorem argsortAsc_sorted (scores : List ℚ) :
    (argsortAsc scores).Pairwise
      (fun i j => scores.getD i 0 ≤ scores.getD j 0) := by
  have h := @List.sorted_mergeSort ℕ
    (fun i j => decide (scores.getD i 0 ≤ scores.getD j 0))
    (fun a b c hab hbc => by
      simp only [decide_eq_true_eq] at hab hbc ⊢
      exact le_trans hab hbc)
    (fun a b => by
      simp only [Bool.or_eq_true, decide_eq_true_eq]
      exact le_total _ _)
    (List.range scores.length)
  refine h.imp ?_
  intro a b hab
  simpa using hab

theorem argsortAsc_stable (scores : List ℚ) (i j : ℕ) (hij : i < j)
    (hj : j < scores.length) (hle : scores.getD i 0 ≤ scores.getD j 0) :
    List.Sublist [i, j] (argsortAsc scores) := by
  refine List.pair_sublist_mergeSort ?_ ?_ ?_ (pair_sublist_range i j _ hij hj)
  · intro a b c hab hbc
    simp only [decide_eq_true_eq] at hab hbc ⊢
    exact le_trans hab hbc
  · intro a b
    simp only [Bool.or_eq_true, decide_eq_true_eq]
    exact le_total _ _
  · simpa using hle

/-- The selected index list of `vector_search` (before mapping to results). -/
def vsIndices (scores : List ℚ) (top_k : ℕ) : List ℕ :=
  (pythonTailSlice (argsortAsc scores) top_k).reverse

theorem vsIndices_length (scores : List ℚ) (top_k : ℕ) (hk : 1 ≤ top_k) :
    (vsIndices scores top_k).length = min top_k scores.length := by
  rw [vsIndices, List.length_reverse, pythonTailSlice,
    if_neg (by omega : ¬ top_k = 0), List.length_drop, argsortAsc_length]
  omega

theorem vsIndices_sublist_argsort (scores : List ℚ) (top_k : ℕ)
    (hk : 1 ≤ top_k) :
    List.Sublist ((vsIndices scores top_k).reverse) (argsortAsc scores) := by
  rw [vsIndices, List.reverse_reverse, pythonTailSlice,
    if_neg (by omega : ¬ top_k = 0)]
  exact List.drop_sublist _ _

theorem vsIndices_nodup (scores : List ℚ) (top_k : ℕ) (hk : 1 ≤ top_k) :
    (vsIndices scores top_k).Nodup := by
  rw [vsIndices, List.nodup_reverse, pythonTailSlice,
    if_neg (by omega : ¬ top_k = 0)]
  exact (List.drop_sublist _ _).nodup (argsortAsc_nodup scores)

theorem mem_vsIndices_lt (scores : List ℚ) (top_k : ℕ) (hk : 1 ≤ top_k)
    (i : ℕ) (hi : i ∈ vsIndices scores top_k) : i < scores.length := by
  rw [← mem_argsortAsc]
  have h := vsIndices_sublist_argsort scores top_k hk
  exact h.subset (by rwa [List.mem_reverse])

/-- The selected indices are ordered by descending score. -/
theorem vsIndices_sorted (scores : List ℚ) (top_k : ℕ) (hk : 1 ≤ top_k) :
    (vsIndices scores top_k).Pairwise
      (fun i j => scores.getD j 0 ≤ scores.getD i 0) := by
  rw [vsIndices, List.pairwise_reverse]
  refine List.Pairwise.sublist ?_ (argsortAsc_sorted scores)
  rw [pythonTailSlice, if_neg (by omega : ¬ top_k = 0)]
  exact List.drop_sublist _ _

/-- Tied scores inside the selection appear in order of descending index
(reverse insertion order). -/
theorem vsIndices_tie_order (scores : List ℚ) (top_k : ℕ) (hk : 1 ≤ top_k)
    (a b : ℕ) (hab : List.Sublist [a, b] (vsIndices scores top_k))
    (htie : scores.getD a 0 = scores.getD b 0) : b < a := by
  have hsub : List.Sublist [b, a] (argsortAsc scores) := by
    have h1 : List.Sublist [a, b].reverse ((vsIndices scores top_k).reverse) :=
      hab.reverse
    simp only [List.reverse_cons, List.reverse_nil, List.nil_append,
      List.singleton_append] at h1
    exact h1.trans (vsIndices_sublist_argsort scores top_k hk)
  have hne : a ≠ b := by
    have hnd := vsIndices_nodup scores top_k hk
    rw [List.nodup_iff_sublist] at hnd
    intro he
    exact hnd a (he ▸ hab)
  rcases Nat.lt_or_ge b a with h | h
  · exact h
  · exfalso
    have hab' : a < b := by omega
    have hbl : b < scores.length :=
      mem_vsIndices_lt scores top_k hk b (hab.subset (by simp))
    have hstable : List.Sublist [a, b] (argsortAsc scores) :=
      argsortAsc_stable scores a b hab' hbl (le_of_eq htie)
    exact hne (sublist_pair_antisymm _ (argsortAsc_nodup scores) a b hstable hsub)

/-- Every unselected index scores no higher than every selected one, and on a
tie the selected index is the larger one. -/
theorem vsIndices_topk (scores : List ℚ) (top_k : ℕ) (hk : 1 ≤ top_k)
    (i j : ℕ) (hi : i ∈ vsIndices scores top_k) (hj : j < scores.length)
    (hj2 : j ∉ vsIndices scores top_k) :
    scores.getD j 0 ≤ scores.getD i 0
      ∧ (scores.getD j 0 = scores.getD i 0 → j < i) := by
  set A := argsortAsc scores with hA
  have hsplit : A = A.take (A.length - top_k) ++ A.drop (A.length - top_k) :=
    (List.take_append_drop _ _).symm
  have hslice : pythonTailSlice A top_k = A.drop (A.length - top_k) := by
    rw [pythonTailSlice, if_neg (by omega : ¬ top_k = 0)]
  have hi' : i ∈ A.drop (A.length - top_k) := by
    rw [← hslice]
    rw [vsIndices, List.mem_reverse] at hi
    exact hi
  have hj' : j ∈ A.take (A.length - top_k) := by
    have hjA : j ∈ A := by rw [hA, mem_argsortAsc]; exact hj
    rw [hsplit, List.mem_append] at hjA
    rcases hjA with h | h
    · exact h
    · exfalso
      apply hj2
      rw [vsIndices, List.mem_reverse, hslice]
      exact h
  have hpw := argsortAsc_sorted scores
  rw [← hA, hsplit, List.pairwise_append] at hpw
  have hle : scores.getD j 0 ≤ scores.getD i 0 := hpw.2.2 j hj' i hi'
  refine ⟨hle, ?_⟩
  intro htie
  have hne : j ≠ i := by
    intro he
    apply hj2
    rw [vsIndices, List.mem_reverse, hslice]
    exact he ▸ hi'
  rcases Nat.lt_or_ge j i with h | h
  · exact h
  · exfalso
    have hij : i < j := by omega
    have hstable : List.Sublist [i, j] A := by
      rw [hA]
      exact argsortAsc_stable scores i j hij hj (le_of_eq htie.symm)
    have hji : List.Sublist [j, i] A := by
      rw [hsplit]
      have h1 : List.Sublist [j] (A.take (A.length - top_k)) :=
        List.singleton_sublist.mpr hj'
      have h2 : List.Sublist [i] (A.drop (A.length - top_k)) :=
        List.singleton_sublist.mpr hi'
      simpa using List.Sublist.append h1 h2
    exact hne (sublist_pair_antisymm _ (argsortAsc_nodup scores) j i hji hstable)

/-! ### Lemmas about `vector_search`, `keyword_search` and `search` -/

theorem vector_search_eq (env : RetrievalEnv) (top_k : ℕ)
    (hd : ¬ env.docs.length = 0) (he : ¬ env.query_embedding = []) :
    vector_search env top_k = (vsIndices env.sims top_k).map fun i =>
      { doc_id := (env.docs.getD i default).doc_id
        content := (env.docs.getD i default).content
        score := env.sims.getD i 0
        retrieval_type := "vector"
        original_source := (env.docs.getD i default).original_source } := by
  rw [vector_search, if_neg hd, if_neg he]
  rfl

theorem vector_search_empty (env : RetrievalEnv) (top_k : ℕ)
    (h : env.query_embedding = [] ∨ env.docs = []) :
    vector_search env top_k = [] := by
  rcases h with h | h
  · rw [vector_search]
    by_cases hd : env.docs.length = 0
    · rw [if_pos hd]
    · rw [if_neg hd, if_pos h]
  · rw [vector_search, if_pos (by rw [h]; rfl)]

theorem keyword_search_empty (env : RetrievalEnv) (top_k : ℕ)
    (h : env.kwDocs = []) : keyword_search env top_k = [] := by
  rw [keyword_search, h, mongoLimit]
  by_cases h0 : top_k = 0
  · rw [if_pos h0]
    rfl
  · rw [if_neg h0]
    simp

theorem vector_search_length_le (env : RetrievalEnv) (top_k : ℕ)
    (hk : 1 ≤ top_k) : (vector_search env top_k).length ≤ top_k := by
  by_cases hd : env.docs.length = 0
  · rw [vector_search, if_pos hd]
    exact Nat.zero_le _
  · by_cases he : env.query_embedding = []
    · rw [vector_search, if_neg hd, if_pos he]
      exact Nat.zero_le _
    · rw [vector_search_eq env top_k hd he, List.length_map,
        vsIndices_length env.sims top_k hk]
      omega

theorem keyword_search_length_le (env : RetrievalEnv) (top_k : ℕ)
    (hk : 1 ≤ top_k) : (keyword_search env top_k).length ≤ top_k := by
  rw [keyword_search, List.length_map, mongoLimit,
    if_neg (by omega : ¬ top_k = 0), List.length_take]
  omega

theorem rrf_fusion_nil (kOpt : Option ℕ) : rrf_fusion [] [] kOpt = [] := by
  simp [rrf_fusion_eq, fusedScores, rrfScoreLoop, sortedIds, keysOf]

theorem resolveTopK_pos (topK : Option ℕ) : 1 ≤ resolveTopK topK := by
  cases topK with
  | none => norm_num [resolveTopK, DEFAULT_TOP_K]
  | some n =>
    by_cases h : n = 0
    · simp [resolveTopK, h, DEFAULT_TOP_K]
    · simp [resolveTopK, h]
      omega

/-! ### Lemmas about the metrics engine -/

theorem firstRankContribution_eq (g : String) (l : List String) (rank : ℕ) :
    firstRankContribution g l rank
      = match l.findIdx? (fun d => d = g) rank with
        | some i => 1 / (i : ℚ)
        | none => 0 := by
  induction l generalizing rank with
  | nil => simp [firstRankContribution]
  | cons d rest ih =>
    by_cases hd : d = g
    · simp [firstRankContribution, hd]
    · simp [firstRankContribution, hd, ih]

theorem firstRankContribution_one (g : String) (l : List String) :
    firstRankContribution g l 1 = goldRR g l := by
  rw [firstRankContribution_eq, goldRR]
  rw [show (1 : ℕ) = 0 + 1 from rfl, List.findIdx?_succ]
  cases h : l.findIdx? (fun d => d = g) 0 with
  | some i =>
    simp only [h, Option.map_some']
    push_cast
    ring_nf
  | none => simp [h]

theorem calculate_reciprocal_rank_eq (gold : Finset String)
    (retrieved : List String) :
    calculate_reciprocal_rank gold retrieved
      = if gold.card = 0 then 0
        else (∑ g ∈ gold, goldRR g retrieved) / gold.card := by
  rw [calculate_reciprocal_rank]
  by_cases hg : gold = ∅
  · simp [hg]
  · rw [if_neg hg, if_neg (by simpa [Finset.card_eq_zero] using hg)]
    rw [Finset.sum_congr rfl (fun g _ => firstRankContribution_one g retrieved)]

theorem firstRankContribution_nonneg (g : String) (l : List String) (rank : ℕ) :
    0 ≤ firstRankContribution g l rank := by
  induction l generalizing rank with
  | nil => exact le_refl 0
  | cons d rest ih =>
    rw [firstRankContribution]
    split
    · positivity
    · exact ih _

theorem firstRankContribution_le_one (g : String) (l : List String) (rank : ℕ)
    (h : 1 ≤ rank) : firstRankContribution g l rank ≤ 1 := by
  induction l generalizing rank with
  | nil => exact zero_le_one
  | cons d rest ih =>
    rw [firstRankContribution]
    split
    · rw [div_le_one (by positivity)]
      exact_mod_cast h
    · exact ih _ (by omega)

theorem calculate_reciprocal_rank_nonneg (gold : Finset String)
    (retrieved : List String) : 0 ≤ calculate_reciprocal_rank gold retrieved := by
  rw [calculate_reciprocal_rank]
  split
  · exact le_refl 0
  · refine div_nonneg ?_ (by positivity)
    exact Finset.sum_nonneg (fun g _ => firstRankContribution_nonneg g retrieved 1)

theorem calculate_reciprocal_rank_le_one (gold : Finset String)
    (retrieved : List String) : calculate_reciprocal_rank gold retrieved ≤ 1 := by
  rw [calculate_reciprocal_rank]
  split
  · exact zero_le_one
  · rename_i hg
    have hpos : 0 < gold.card := Finset.card_pos.mpr (Finset.nonempty_iff_ne_empty.mpr hg)
    rw [div_le_one (by exact_mod_cast hpos)]
    have hsum : (∑ g ∈ gold, firstRankContribution g retrieved 1)
        ≤ gold.card • (1 : ℚ) :=
      Finset.sum_le_card_nsmul gold _ 1
        (fun g _ => firstRankContribution_le_one g retrieved 1 (le_refl 1))
    simpa using hsum

theorem reciprocal_rank_nonneg (r : RagRecord) : 0 ≤ reciprocal_rank r :=
  calculate_reciprocal_rank_nonneg _ _

theorem reciprocal_rank_le_one (r : RagRecord) : reciprocal_rank r ≤ 1 :=
  calculate_reciprocal_rank_le_one _ _

theorem foldl_add_total (rs : List RagRecord) (a : GroupAcc) :
    (rs.foldl GroupAcc.add a).total = a.total + rs.length := by
  induction rs generalizing a with
  | nil => simp
  | cons r rest ih =>
    rw [List.foldl_cons, ih]
    simp [GroupAcc.add]
    omega

theorem foldl_add_gold (rs : List RagRecord) (a : GroupAcc) :
    (rs.foldl GroupAcc.add a).gold_docs
      = a.gold_docs + (rs.map gold_count).sum := by
  induction rs generalizing a with
  | nil => simp
  | cons r rest ih =>
    rw [List.foldl_cons, ih]
    simp [GroupAcc.add]
    omega

theorem foldl_add_hit (rs : List RagRecord) (a : GroupAcc) :
    (rs.foldl GroupAcc.add a).hit_docs
      = a.hit_docs + (rs.map hit_count).sum := by
  induction rs generalizing a with
  | nil => simp
  | cons r rest ih =>
    rw [List.foldl_cons, ih]
    simp [GroupAcc.add]
    omega

theorem foldl_add_rr (rs : List RagRecord) (a : GroupAcc) :
    (rs.foldl GroupAcc.add a).rr_sum
      = a.rr_sum + (rs.map reciprocal_rank).sum := by
  induction rs generalizing a with
  | nil => simp
  | cons r rest ih =>
    rw [List.foldl_cons, ih]
    simp [GroupAcc.add]
    ring

theorem totalsAcc_total (rs : List RagRecord) : (totalsAcc rs).total = rs.length := by
  rw [totalsAcc, foldl_add_total]
  simp [GroupAcc.empty]

theorem totalsAcc_gold (rs : List RagRecord) :
    (totalsAcc rs).gold_docs = (rs.map gold_count).sum := by
  rw [totalsAcc, foldl_add_gold]
  simp [GroupAcc.empty]

theorem totalsAcc_hit (rs : List RagRecord) :
    (totalsAcc rs).hit_docs = (rs.map hit_count).sum := by
  rw [totalsAcc, foldl_add_hit]
  simp [GroupAcc.empty]

theorem totalsAcc_rr (rs : List RagRecord) :
    (totalsAcc rs).rr_sum = (rs.map reciprocal_rank).sum := by
  rw [totalsAcc, foldl_add_rr]
  simp [GroupAcc.empty]

theorem foldl_if_eq_foldl_filter (key : RagRecord → String) (v : String)
    (rs : List RagRecord) :
    ∀ a : GroupAcc,
      rs.foldl (fun a r => if key r = v then GroupAcc.add a r else a) a
        = (rs.filter (fun r => key r = v)).foldl GroupAcc.add a := by
  induction rs with
  | nil => intro a; rfl
  | cons r rest ih =>
    intro a
    by_cases h : key r = v
    · rw [List.foldl_cons, if_pos h, List.filter_cons_of_pos (by simpa using h),
        List.foldl_cons, ih]
    · rw [List.foldl_cons, if_neg h,
        List.filter_cons_of_neg (by simpa using h), ih]

theorem groupAcc_eq_totalsAcc_filter (key : RagRecord → String) (v : String)
    (rs : List RagRecord) :
    groupAcc key v rs = totalsAcc (rs.filter (fun r => key r = v)) := by
  rw [groupAcc, totalsAcc, foldl_if_eq_foldl_filter]

theorem list_sum_le_length (l : List ℚ) (h : ∀ x ∈ l, x ≤ 1) :
    l.sum ≤ (l.length : ℚ) := by
  induction l with
  | nil => simp
  | cons x t ih =>
    simp only [List.sum_cons, List.length_cons]
    push_cast
    have h1 := h x (List.mem_cons_self x t)
    have h2 := ih (fun y hy => h y (List.mem_cons_of_mem x hy))
    linarith

theorem list_sum_nonneg (l : List ℚ) (h : ∀ x ∈ l, 0 ≤ x) : 0 ≤ l.sum := by
  induction l with
  | nil => simp
  | cons x t ih =>
    simp only [List.sum_cons]
    have h1 := h x (List.mem_cons_self x t)
    have h2 := ih (fun y hy => h y (List.mem_cons_of_mem x hy))
    linarith

theorem hit_count_le_gold_count (r : RagRecord) : hit_count r ≤ gold_count r :=
  Finset.card_le_card Finset.inter_subset_left

theorem sum_hit_le_sum_gold (rs : List RagRecord) :
    (rs.map hit_count).sum ≤ (rs.map gold_count).sum := by
  induction rs with
  | nil => exact le_refl 0
  | cons r rest ih =>
    simp only [List.map_cons, List.sum_cons]
    exact Nat.add_le_add (hit_count_le_gold_count r) ih

section Sanity

example : (rrf_fusion [rA] [rC] (some 60)).map RetrievalResult.score
    = [1/61 + 1/61] := by
  simp [rrf_fusion, sortedIds, fusedScores, fusedDocMap, rrfScoreLoop,
    rrfDocLoopV, rrfDocLoopK, addScore, setDoc, insertDocIfAbsent, keysOf,
    scoreOf, mkFused, lookupDoc, resolveRRFK, RRF_K, List.mergeSort, rA, rC]
  norm_num

example : (rrf_fusion [rA, rB] [] none).map RetrievalResult.doc_id
    = ["d1", "d2"] := by
  simp [rrf_fusion, sortedIds, fusedScores, fusedDocMap, rrfScoreLoop,
    rrfDocLoopV, rrfDocLoopK, addScore, setDoc, insertDocIfAbsent, keysOf,
    scoreOf, mkFused, lookupDoc, resolveRRFK, RRF_K, List.mergeSort, rA, rB]
  norm_num [List.merge]
  simp [mkFused, lookupDoc, show (62 : ℚ)⁻¹ ≤ 61⁻¹ from by norm_num]

example : (rrf_fusion [rA] [rC] (some 60)).map RetrievalResult.content
    = ["c1"] := by
  simp [rrf_fusion, sortedIds, fusedScores, fusedDocMap, rrfScoreLoop,
    rrfDocLoopV, rrfDocLoopK, addScore, setDoc, insertDocIfAbsent, keysOf,
    scoreOf, mkFused, lookupDoc, resolveRRFK, RRF_K, List.mergeSort, rA, rC]

end Sanity

/-! ## Claim theorems -/

/-- C1 (amended): for every pair of input lists and every damping constant
`k ≥ 1` passed explicitly, `rrf_fusion` returns exactly one entry per distinct
document identifier appearing in either input, sorted descending by
accumulated score, where each item at 0-based rank `r` in a list contributes
`1/(k + r + 1)` to its identifier's score; in particular a document present
(uniquely) in both lists at ranks `ra` and `rb` has fused score exactly
`1/(k+ra+1) + 1/(k+rb+1)`.  (Amendment: the claim's "every damping constant
`k`" must exclude `k = 0`, which Python's `k = k or settings.RRF_K` silently
replaces by the configured default `60` — see the counterexample.) -/
theorem C1_rrf_fusion_exact (vres kres : List RetrievalResult) (k : ℕ)
    (hk : 1 ≤ k) :
    ((rrf_fusion vres kres (some k)).map RetrievalResult.doc_id).Nodup
    ∧ (∀ d : String,
        d ∈ (rrf_fusion vres kres (some k)).map RetrievalResult.doc_id
          ↔ d ∈ (vres ++ kres).map RetrievalResult.doc_id)
    ∧ (rrf_fusion vres kres (some k)).Pairwise (fun a b => b.score ≤ a.score)
    ∧ (∀ e ∈ rrf_fusion vres kres (some k),
        e.score = rrfContribution k 0 vres e.doc_id
          + rrfContribution k 0 kres e.doc_id)
    ∧ (∀ (d : String) (ra rb : ℕ) (hra : ra < vres.length)
        (hrb : rb < kres.length),
        (vres.map RetrievalResult.doc_id).Nodup →
        (kres.map RetrievalResult.doc_id).Nodup →
        (vres.get ⟨ra, hra⟩).doc_id = d →
        (kres.get ⟨rb, hrb⟩).doc_id = d →
        ∀ e ∈ rrf_fusion vres kres (some k), e.doc_id = d →
          e.score = 1 / ((k : ℚ) + ra + 1) + 1 / ((k : ℚ) + rb + 1)) := by
  have hres : resolveRRFK (some k) = k := resolveRRFK_of_pos k hk
  refine ⟨?_, ?_, ?_, ?_, ?_⟩
  · rw [rrf_fusion_map_doc_id, hres]
    exact (sortedIds_perm _).nodup_iff.mpr (keysOf_fusedScores_nodup k vres kres)
  · intro d
    rw [rrf_fusion_map_doc_id, hres, mem_sortedIds, mem_keysOf_fusedScores]
    simp
  · rw [rrf_fusion_eq, List.pairwise_map, hres]
    refine (sortedIds_sorted (fusedScores k vres kres)).imp_of_mem ?_
    intro a b ha hb hab
    rw [mkFused_score_of_mem k vres kres a ((mem_sortedIds _ a).mp ha),
      mkFused_score_of_mem k vres kres b ((mem_sortedIds _ b).mp hb)]
    exact hab
  · intro e he
    have hs := rrf_fusion_score vres kres (some k) e he
    rwa [hres, scoreOf_fusedScores] at hs
  · intro d ra rb hra hrb hndv hndk hda hdb e he hid
    have hs := rrf_fusion_score vres kres (some k) e he
    rw [hres, scoreOf_fusedScores, hid] at hs
    rw [hs, rrfContribution_of_nodup k vres d hndv 0 ra hra hda,
      rrfContribution_of_nodup k kres d hndk 0 rb hrb hdb]
    norm_num

/-- C1 witness: at `k = 60` with a vector list `[rA]` and keyword list `[rC]`
both naming document `d1`, the fused output has pairwise-distinct
identifiers. -/
theorem C1_rrf_fusion_exact_witness :
    ((rrf_fusion [rA] [rC] (some 60)).map RetrievalResult.doc_id).Nodup :=
  (C1_rrf_fusion_exact [rA] [rC] 60 (by norm_num)).1

/-- C1 counterexample: calling `rrf_fusion` with the explicit damping constant
`k = 0` does not give the claimed score `1/(0+0+1) = 1` to the rank-0 document
of a singleton list: Python's `k = k or settings.RRF_K` treats `0` as falsy
and computes with `k = 60`, producing `1/61`. -/
theorem C1_counterexample :
    (rrf_fusion [rA] [] (some 0)).map RetrievalResult.score = [1 / 61]
    ∧ ((1 : ℚ) / 61) ≠ 1 / ((0 : ℚ) + 0 + 1) := by
  constructor
  · simp [rrf_fusion, sortedIds, fusedScores, fusedDocMap, rrfScoreLoop,
      rrfDocLoopV, rrfDocLoopK, addScore, setDoc, insertDocIfAbsent, keysOf,
      scoreOf, mkFused, lookupDoc, resolveRRFK, RRF_K, List.mergeSort, rA]
    norm_num
  · norm_num

/-- C8: the content and `original_source` of every fused entry come from the
input list that first introduced its identifier: from some vector entry with
that identifier whenever the vector list contains it (vector priority), and
otherwise from some keyword entry with that identifier. -/
theorem C8_fused_metadata (vres kres : List RetrievalResult) (kOpt : Option ℕ)
    (e : RetrievalResult) (he : e ∈ rrf_fusion vres kres kOpt) :
    (e.doc_id ∈ vres.map RetrievalResult.doc_id →
      ∃ o, o ∈ vres ∧ o.doc_id = e.doc_id ∧ e.content = o.content
        ∧ e.original_source = o.original_source)
    ∧ (e.doc_id ∉ vres.map RetrievalResult.doc_id →
      ∃ o, o ∈ kres ∧ o.doc_id = e.doc_id ∧ e.content = o.content
        ∧ e.original_source = o.original_source) := by
  rw [rrf_fusion_eq] at he
  obtain ⟨d, hd, hde⟩ := List.mem_map.mp he
  rw [mem_sortedIds, mem_keysOf_fusedScores] at hd
  obtain ⟨o, ho⟩ := fusedDocMap_coverage vres kres d hd
  have hcase := fusedDocMap_some vres kres d o ho
  have hoid : o.doc_id = d := by
    rcases hcase with h | h
    · exact h.2
    · exact h.2.1
  have hfields : e.doc_id = o.doc_id ∧ e.content = o.content
      ∧ e.original_source = o.original_source := by
    rw [← hde]
    simp [mkFused, ho]
  constructor
  · intro hmem
    rcases hcase with h | h
    · exact ⟨o, h.1, hfields.1.symm, hfields.2.1, hfields.2.2⟩
    · rw [hfields.1, hoid] at hmem
      exact absurd hmem h.2.2
  · intro hmem
    rcases hcase with h | h
    · rw [hfields.1, hoid] at hmem
      exact absurd (hoid ▸ (List.mem_map_of_mem RetrievalResult.doc_id h.1)) hmem
    · exact ⟨o, h.1, hfields.1.symm, hfields.2.1, hfields.2.2⟩

/-- C8 witness: with `rA` (vector, content `c1`) and `rC` (keyword, content
`k1`) colliding on `d1`, the fused entry takes content and source from the
vector entry. -/
theorem C8_fused_metadata_witness :
    ∃ o, o ∈ [rA]
      ∧ o.doc_id = (RetrievalResult.mk "d1" "c1" (1/61 + 1/61) "hybrid"
          (some "s1")).doc_id
      ∧ (RetrievalResult.mk "d1" "c1" (1/61 + 1/61) "hybrid"
          (some "s1")).content = o.content
      ∧ (RetrievalResult.mk "d1" "c1" (1/61 + 1/61) "hybrid"
          (some "s1")).original_source = o.original_source :=
  (C8_fused_metadata [rA] [rC] (some 60)
    (RetrievalResult.mk "d1" "c1" (1/61 + 1/61) "hybrid" (some "s1"))
    (by
      have he : rrf_fusion [rA] [rC] (some 60)
          = [RetrievalResult.mk "d1" "c1" (1/61 + 1/61) "hybrid" (some "s1")] := by
        simp [rrf_fusion, sortedIds, fusedScores, fusedDocMap, rrfScoreLoop,
          rrfDocLoopV, rrfDocLoopK, addScore, setDoc, insertDocIfAbsent, keysOf,
          scoreOf, mkFused, lookupDoc, resolveRRFK, RRF_K, List.mergeSort, rA, rC]
        norm_num
      rw [he]
      exact List.mem_singleton.mpr rfl)).1
    (by simp [rA])

/-- C10: fusion is deterministic (two calls on identical inputs agree), the
pre-sort candidate order is exactly first-introduction order (vector entries
in rank order, then keyword-only entries), and identifiers with exactly equal
accumulated scores keep that first-introduction order in the output, because
the descending sort is stable. -/
theorem C10_fusion_deterministic_stable (vres kres : List RetrievalResult)
    (kOpt : Option ℕ) (d1 d2 : String)
    (hsub : List.Sublist [d1, d2]
      (keysOf (fusedScores (resolveRRFK kOpt) vres kres)))
    (htie : scoreOf (fusedScores (resolveRRFK kOpt) vres kres) d1
      = scoreOf (fusedScores (resolveRRFK kOpt) vres kres) d2) :
    rrf_fusion vres kres kOpt = rrf_fusion vres kres kOpt
    ∧ keysOf (fusedScores (resolveRRFK kOpt) vres kres)
        = firstOccurrences (vres.map RetrievalResult.doc_id
            ++ kres.map RetrievalResult.doc_id)
    ∧ List.Sublist [d1, d2]
        ((rrf_fusion vres kres kOpt).map RetrievalResult.doc_id) := by
  refine ⟨rfl, keysOf_fusedScores_eq _ _ _, ?_⟩
  rw [rrf_fusion_map_doc_id]
  exact sortedIds_stable _ _ _ hsub htie

/-- C10 witness: `rA` (vector, `d1`) and `rD` (keyword-only, `d3`) tie at
score `1/61` each; the fused output keeps `d1` (introduced first) ahead of
`d3`. -/
theorem C10_fusion_deterministic_stable_witness :
    List.Sublist ["d1", "d3"]
      ((rrf_fusion [rA] [rD] none).map RetrievalResult.doc_id) :=
  (C10_fusion_deterministic_stable [rA] [rD] none "d1" "d3"
    (by
      have hk : keysOf (fusedScores (resolveRRFK none) [rA] [rD])
          = ["d1", "d3"] := by
        simp [fusedScores, rrfScoreLoop, addScore, keysOf, resolveRRFK,
          RRF_K, rA, rD]
      rw [hk])
    (by
      simp [fusedScores, rrfScoreLoop, addScore, scoreOf, resolveRRFK,
        RRF_K, rA, rD])).2.2

/-- C3 (amended): for every similarity row and every `top_k ≥ 1`, with a
non-empty index and a successful embedding call, `vector_search` returns the
`min top_k n` highest-scoring documents ordered descending by similarity —
but equal scores are broken by **descending** original index (reverse
insertion order), because `argsort()` ascending is sliced and then reversed;
and on a tie across the selection cut the **larger** index is kept.
(Amendments: tie order is the reverse of the claimed insertion order, and
`top_k = 0` is excluded — `[-0:]` slices the whole list.) -/
theorem C3_vector_search_order (env : RetrievalEnv) (top_k : ℕ)
    (hk : 1 ≤ top_k) (hlen : env.sims.length = env.docs.length)
    (hd : ¬ env.docs.length = 0) (he : ¬ env.query_embedding = []) :
    vector_search env top_k = (vsIndices env.sims top_k).map (fun i =>
      { doc_id := (env.docs.getD i default).doc_id
        content := (env.docs.getD i default).content
        score := env.sims.getD i 0
        retrieval_type := "vector"
        original_source := (env.docs.getD i default).original_source })
    ∧ (vsIndices env.sims top_k).length = min top_k env.docs.length
    ∧ (vsIndices env.sims top_k).Nodup
    ∧ (∀ i ∈ vsIndices env.sims top_k, i < env.docs.length)
    ∧ (vsIndices env.sims top_k).Pairwise
        (fun i j => env.sims.getD j 0 ≤ env.sims.getD i 0)
    ∧ (∀ i j : ℕ, List.Sublist [i, j] (vsIndices env.sims top_k) →
        env.sims.getD i 0 = env.sims.getD j 0 → j < i)
    ∧ (∀ i ∈ vsIndices env.sims top_k, ∀ j : ℕ, j < env.docs.length →
        j ∉ vsIndices env.sims top_k →
        env.sims.getD j 0 ≤ env.sims.getD i 0
          ∧ (env.sims.getD j 0 = env.sims.getD i 0 → j < i)) := by
  refine ⟨vector_search_eq env top_k hd he, ?_, vsIndices_nodup _ _ hk, ?_,
    vsIndices_sorted _ _ hk, ?_, ?_⟩
  · rw [vsIndices_length _ _ hk, hlen]
  · intro i hi
    rw [← hlen]
    exact mem_vsIndices_lt _ _ hk i hi
  · intro i j hij htie
    exact vsIndices_tie_order _ _ hk i j hij htie
  · intro i hi j hjl hjn
    exact vsIndices_topk _ _ hk i j hi (hlen ▸ hjl) hjn

/-- C3 witness: with two tied documents and `top_k = 1`, the selection has
length `min 1 2 = 1`. -/
theorem C3_vector_search_order_witness :
    (vsIndices envTie.sims 1).length = min 1 envTie.docs.length :=
  (C3_vector_search_order envTie 1 (by norm_num) (by decide) (by decide)
    (by decide)).2.1

/-- C3 counterexample: two documents with equal similarity `1/2` come back as
`[d1, d0]` — reverse insertion order, not the claimed insertion order — and
`top_k = 0` returns the whole index (2 items) instead of none. -/
theorem C3_counterexample :
    (vector_search envTie 2).map RetrievalResult.doc_id = ["d1", "d0"]
    ∧ ["d1", "d0"] ≠ (["d0", "d1"] : List String)
    ∧ (vector_search envTie 0).length = 2 := by
  refine ⟨?_, by decide, ?_⟩
  · simp [vector_search, envTie, pythonTailSlice, argsortAsc, List.mergeSort,
      List.merge, List.range_succ]
  · simp [vector_search, envTie, pythonTailSlice, argsortAsc, List.mergeSort,
      List.merge, List.range_succ]

/-- C4 (amended): `search` in hybrid mode runs both legs at the initial
retrieval width `INITIAL_RETRIEVAL_K = 20` (independent of `top_k`), fuses
them with RRF, and truncates to the **effective** `top_k`; in every mode the
returned list has length at most the effective `top_k`.  (Amendment: the
effective `top_k` is the passed value only when it is `≥ 1`; `None` and the
falsy `0` are replaced by the configured default `5` by
`top_k = top_k or settings.DEFAULT_TOP_K`, so the claimed bound fails for the
passed value `0` — see the counterexample.) -/
theorem C4_search_shape (env : RetrievalEnv) (topK : Option ℕ) (mode : String) :
    1 ≤ resolveTopK topK
    ∧ INITIAL_RETRIEVAL_K = 20
    ∧ search env topK "hybrid"
        = (rrf_fusion (vector_search env INITIAL_RETRIEVAL_K)
            (keyword_search env INITIAL_RETRIEVAL_K) none).take (resolveTopK topK)
    ∧ (search env topK mode).length ≤ resolveTopK topK := by
  refine ⟨resolveTopK_pos topK, rfl, by rw [search]; rfl, ?_⟩
  rw [search]
  by_cases hv : mode = "vector"
  · rw [if_pos hv]
    exact vector_search_length_le env _ (resolveTopK_pos topK)
  · rw [if_neg hv]
    by_cases hkw : mode = "keyword"
    · rw [if_pos hkw]
      exact keyword_search_length_le env _ (resolveTopK_pos topK)
    · rw [if_neg hkw]
      rw [List.length_take]
      omega

/-- C4 counterexample: passing `top_k = 0` does not bound the result by `0`:
the orchestrator replaces the falsy `0` by the default `5`, and a store with
one text-search hit yields one result. -/
theorem C4_counterexample :
    (search envKw (some 0) "keyword").length = 1
    ∧ ¬ ((search envKw (some 0) "keyword").length ≤ 0) := by
  constructor
  · decide
  · decide

/-- C6 (amended): `search` degrades gracefully rather than raising: vector
mode returns `[]` whenever the embedding call failed or the vector index is
empty; keyword mode returns `[]` whenever the text index has no matches; and
hybrid mode returns `[]` when the dense leg is degraded **and** the lexical
results are empty.  (Amendment: in hybrid — and trivially keyword — mode an
embedding failure alone does not give an empty result: the keyword leg still
contributes, see the counterexample.) -/
theorem C6_search_graceful (env : RetrievalEnv) (topK : Option ℕ) :
    ((env.query_embedding = [] ∨ env.docs = []) →
      search env topK "vector" = [])
    ∧ (env.kwDocs = [] → search env topK "keyword" = [])
    ∧ ((env.query_embedding = [] ∨ env.docs = []) → env.kwDocs = [] →
        search env topK "hybrid" = []) := by
  refine ⟨?_, ?_, ?_⟩
  · intro h
    rw [search]
    rw [if_pos rfl]
    exact vector_search_empty env _ h
  · intro h
    rw [search]
    rw [if_neg (by decide), if_pos rfl]
    exact keyword_search_empty env _ h
  · intro hv hkw
    rw [search]
    rw [if_neg (by decide), if_neg (by decide)]
    rw [vector_search_empty env _ hv, keyword_search_empty env _ hkw,
      rrf_fusion_nil]
    exact List.take_nil

/-- C6 witness: with the embedding call failed, vector-mode search returns
the empty list (and does not raise — the model is total). -/
theorem C6_search_graceful_witness : search envEmb none "vector" = [] :=
  (C6_search_graceful envEmb none).1 (Or.inl rfl)

/-- C6 counterexample: with the embedding call failed but a populated text
index, hybrid search returns the keyword document — not the empty list the
claim requires for every retrieval mode. -/
theorem C6_counterexample :
    (search envEmb none "hybrid").map RetrievalResult.doc_id = ["kd"]
    ∧ ¬ (search envEmb none "hybrid" = []) := by
  have h1 : (search envEmb none "hybrid").map RetrievalResult.doc_id = ["kd"] := by
    simp [search, resolveTopK, DEFAULT_TOP_K, INITIAL_RETRIEVAL_K, envEmb,
      vector_search, keyword_search, mongoLimit, rrf_fusion, sortedIds,
      fusedScores, fusedDocMap, rrfScoreLoop, rrfDocLoopV, rrfDocLoopK,
      addScore, setDoc, insertDocIfAbsent, keysOf, scoreOf, mkFused,
      lookupDoc, resolveRRFK, RRF_K, List.mergeSort]
  refine ⟨h1, ?_⟩
  intro h
  rw [h] at h1
  simp at h1

/-- C2: the reciprocal rank of a record is the average over all gold ids (not
only the hit ones) of `1/rank` of each gold id's first occurrence in the
retrieved list (`0` when absent); the batch MRR is the mean of the per-record
values; and the claim's example — one gold id at rank 1, the other absent —
evaluates to `(1/1 + 0)/2 = 0.5`. -/
theorem C2_reciprocal_rank_spec (gold_ids retrieved : List String)
    (rs : List RagRecord) :
    calculate_reciprocal_rank gold_ids.toFinset retrieved
      = (if gold_ids.toFinset.card = 0 then 0
         else (∑ g ∈ gold_ids.toFinset, goldRR g retrieved)
           / gold_ids.toFinset.card)
    ∧ summary_mrr rs
      = (if rs.length = 0 then 0 else (rs.map reciprocal_rank).sum / rs.length)
    ∧ calculate_reciprocal_rank (insert "g1" {"g2"}) ["g1", "x"] = 1/2 := by
  refine ⟨calculate_reciprocal_rank_eq _ _, ?_, ?_⟩
  · rw [summary_mrr, totalsAcc_rr]
    by_cases h : rs.length = 0
    · rw [if_neg (by omega), if_pos h]
    · rw [if_pos (by omega), if_neg h]
  · rw [calculate_reciprocal_rank, if_neg (by decide)]
    rw [Finset.sum_insert (by decide), Finset.sum_singleton,
      show (insert "g1" ({"g2"} : Finset String)).card = 2 by decide]
    simp only [firstRankContribution]
    simp

/-- C5: the aggregate partial hit rate is micro-averaged — the sum of
`hit_count` over the records divided by the sum of `gold_count` (0 when the
denominator is 0) — and each group of a grouped aggregation applies the same
formula to exactly its own records. -/
theorem C5_part_hit_rate_spec (rs : List RagRecord) (key : RagRecord → String)
    (v : String) :
    part_hit_rate rs
      = (if 0 < (rs.map gold_count).sum
         then ((rs.map hit_count).sum : ℚ) / (rs.map gold_count).sum else 0)
    ∧ group_part_hit_rate (groupAcc key v rs)
      = (if 0 < ((rs.filter (fun r => key r = v)).map gold_count).sum
         then (((rs.filter (fun r => key r = v)).map hit_count).sum : ℚ)
              / ((rs.filter (fun r => key r = v)).map gold_count).sum
         else 0) := by
  constructor
  · rw [part_hit_rate, totalsAcc_gold, totalsAcc_hit]
  · rw [groupAcc_eq_totalsAcc_filter, group_part_hit_rate, totalsAcc_gold,
      totalsAcc_hit]

/-- C9: per record, `hit_count ≤ gold_count` (the intersection of gold and
retrieved id sets cannot outgrow the gold set) and `is_hit ↔ hit_count > 0`;
per batch, the derived `hit_rate`, partial hit rate and MRR lie in `[0, 1]`. -/
theorem C9_invariants (r : RagRecord) (rs : List RagRecord) :
    hit_count r ≤ gold_count r
    ∧ (is_hit r = true ↔ 0 < hit_count r)
    ∧ (0 ≤ hit_rate rs ∧ hit_rate rs ≤ 1)
    ∧ (0 ≤ part_hit_rate rs ∧ part_hit_rate rs ≤ 1)
    ∧ (0 ≤ summary_mrr rs ∧ summary_mrr rs ≤ 1) := by
  refine ⟨hit_count_le_gold_count r, by simp [is_hit], ⟨?_, ?_⟩, ⟨?_, ?_⟩,
    ⟨?_, ?_⟩⟩
  · rw [hit_rate]
    split
    · positivity
    · exact le_refl 0
  · rw [hit_rate]
    split
    · rename_i h
      rw [div_le_one (by exact_mod_cast h)]
      exact_mod_cast List.length_filter_le _ rs
    · exact zero_le_one
  · rw [part_hit_rate]
    split
    · positivity
    · exact le_refl 0
  · rw [part_hit_rate, totalsAcc_gold, totalsAcc_hit]
    split
    · rename_i h
      rw [div_le_one (by exact_mod_cast h)]
      exact_mod_cast sum_hit_le_sum_gold rs
    · exact zero_le_one
  · rw [summary_mrr, totalsAcc_rr]
    split
    · refine div_nonneg (list_sum_nonneg _ ?_) (by positivity)
      intro x hx
      obtain ⟨r', _, rfl⟩ := List.mem_map.mp hx
      exact reciprocal_rank_nonneg r'
    · exact le_refl 0
  · rw [summary_mrr, totalsAcc_rr]
    split
    · rename_i h
      rw [div_le_one (by exact_mod_cast h)]
      have hle := list_sum_le_length (rs.map reciprocal_rank) ?_
      · rwa [List.length_map] at hle
      · intro x hx
        obtain ⟨r', _, rfl⟩ := List.mem_map.mp hx
        exact reciprocal_rank_le_one r'
    · exact zero_le_one

/-- C7: on a successful provider call the judge's `is_pass` is exactly the
case-insensitive equality of the (stripped) verdict with "Pass"; on any
provider failure it returns `is_pass = false` and a non-empty error marker;
and the batch loop yields one judgment per input, never aborting. -/
theorem C7_judge_semantics (resp : Except String String) :
    (∀ c : String, resp = Except.ok c →
      (evaluate_answer resp).2 = (c.trim.toLower == "Pass".toLower))
    ∧ (∀ e : String, resp = Except.error e →
      (evaluate_answer resp).2 = false ∧ ¬ (evaluate_answer resp).1 = "")
    ∧ (∀ resps : List (Except String String),
        (evaluate_all resps).length = resps.length) := by
  refine ⟨?_, ?_, fun resps => List.length_map _ _⟩
  · intro c hc
    subst hc
    have hp : "Pass".toLower = "pass" := by
      rw [String.toLower, String.map_eq]
      decide
    rw [hp]
    rfl
  · intro e he
    subst he
    refine ⟨rfl, ?_⟩
    intro h
    simp only [evaluate_answer] at h
    have h2 := congrArg String.data h
    rw [String.data_append] at h2
    simp at h2

/-- C7 witness: a simulated provider exception yields `is_pass = false` and a
non-empty error marker. -/
theorem C7_judge_semantics_witness :
    (evaluate_answer (Except.error "boom")).2 = false
    ∧ ¬ ((evaluate_answer (Except.error "boom")).1 = "") :=
  (C7_judge_semantics (Except.error "boom")).2.1 "boom" rfl

end HybridRag
